import Mathlib

/-!
Verification of the rush-ielts vocabulary-study core: a shallow embedding of
the IndexedDB persistence layer (`app/utils/db.ts`, schema version 2), the
study-session route (recognition/spelling review), and the import pipeline
(`app/routes/import.tsx`), together with proofs of the specified properties.

Modelling conventions:
- The IndexedDB database is a pure state `DB` (collections, word records, and
  the autoIncrement counters of the two object stores); every store operation
  becomes a pure function on `DB`.
- `Date.now()` timestamps are passed in as explicit `now : Nat` arguments.
- `Math.random()` draws are passed in as explicit choice lists: the shuffle
  takes the list of drawn indices `j = Math.floor(Math.random() * (i + 1))`.
- IndexedDB keys can be numbers or strings; `IDBKey` models this, which is
  needed because the study route passes a word *string* to functions that look
  records up by their numeric autoIncrement id.
-/

namespace Rush

/-- The two mistake kinds of `mistakeTypes: ('recognition' | 'spelling')[]`. -/
inductive MistakeType where
  | recognition : MistakeType
  | spelling : MistakeType
deriving DecidableEq

/-- One example sentence `{ en: string; cn: string; audio: string }`. -/
structure ExampleEntry where
  en : String
  cn : String
  audio : String
deriving DecidableEq

/-- A stored vocabulary record (interface `WordRecord` in db.ts).  In the
version-2 store every persisted record has a numeric autoIncrement `id` and a
`collectionId` set by `addWordToVocab`, so `id : Nat`; `collectionId` stays
optional as in the interface. -/
structure WordRecord where
  id : Nat
  word : String
  phonetic : String
  definition : List String
  examples : List ExampleEntry
  audio : String
  addedAt : Nat
  mistakeCount : Nat
  lastReviewed : Nat
  mistakeTypes : List MistakeType
  collectionId : Option Nat
deriving DecidableEq

/-- A stored collection (interface `Collection` in db.ts); persisted records
always carry their autoIncrement `id`. -/
structure Collection where
  id : Nat
  name : String
  createdAt : Nat
deriving DecidableEq

/-- The argument of `addWordToVocab`:
`Omit<WordRecord, 'addedAt' | 'mistakeCount' | 'lastReviewed' | 'mistakeTypes'>`.
Drafts produced by the import flow carry no `id` (the dictionary response has
none and the store assigns ids by autoIncrement), so the optional `id` is
modelled as absent. -/
structure WordDraft where
  word : String
  phonetic : String
  definition : List String
  examples : List ExampleEntry
  audio : String
  collectionId : Option Nat
deriving DecidableEq

/-- The state of the `rush_db` IndexedDB database (version 2): the two object
stores plus their autoIncrement key generators.  Both stores keep records in
ascending key order, which for records only ever inserted with fresh counter
values coincides with insertion order of the lists below. -/
structure DB where
  collections : List Collection
  words : List WordRecord
  nextCollectionId : Nat
  nextWordId : Nat
deriving DecidableEq

/-- An IndexedDB key: the vocabulary store is keyed by the numeric `id`, but
callers may (wrongly) pass a string. -/
inductive IDBKey where
  | num : Nat → IDBKey
  | str : String → IDBKey
deriving DecidableEq

/-- The key of a stored word record (keyPath `id`). -/
def wordKey (w : WordRecord) : IDBKey := IDBKey.num w.id

/-- JS `data.collectionId || 1`: `undefined` and `0` are falsy and fall back
to the default collection id `1`. -/
def orDefaultCollection : Option Nat → Nat
  | none => 1
  | some n => if n = 0 then 1 else n

/-- `getCollections()`: `getAll` on the collections store. -/
def getCollections (db : DB) : List Collection := db.collections

/-- `addCollection(name)`: `store.add({ name, createdAt: Date.now() })`;
resolves with the generated key.  No validation of any kind is performed. -/
def addCollection (name : String) (now : Nat) (db : DB) : DB × Nat :=
  ({ db with
      collections := db.collections ++ [⟨db.nextCollectionId, name, now⟩],
      nextCollectionId := db.nextCollectionId + 1 },
   db.nextCollectionId)

/-- The `handleCreate` guard of the collections route:
`if (!collectionNameInput.trim()) return;` then
`await addCollection(collectionNameInput.trim())`.  (`jsTrim` is defined
below; Lean forward references are not allowed, so this is declared after it.) -/
def deleteCollection (id : Nat) (db : DB) : DB :=
  { db with
      collections := db.collections.filter (fun c => c.id != id),
      words := db.words.filter (fun w => w.collectionId != some id) }

/-- `addWordToVocab(data)`: looks the pair
`[data.word, data.collectionId || 1]` up in the unique `word_collection`
index; if a record exists the call resolves without writing (silent no-op),
otherwise a fresh record is added with a new autoIncrement id, `addedAt`
stamped to now and zeroed progress fields (`addWordToVocab` below).
The record literal written by the miss branch:
`{ ...data, addedAt: Date.now(), mistakeCount: 0, lastReviewed: 0,
mistakeTypes: [], collectionId: data.collectionId || 1 }` with the
autoIncrement key. -/
def newWordRecord (d : WordDraft) (now freshId : Nat) : WordRecord :=
  { id := freshId, word := d.word, phonetic := d.phonetic,
    definition := d.definition, examples := d.examples, audio := d.audio,
    addedAt := now, mistakeCount := 0, lastReviewed := 0, mistakeTypes := [],
    collectionId := some (orDefaultCollection d.collectionId) }

/-- `addWordToVocab(data)`: unique-index check on
`[data.word, data.collectionId || 1]`, then skip or insert. -/
def addWordToVocab (d : WordDraft) (now : Nat) (db : DB) : DB :=
  let cid := orDefaultCollection d.collectionId
  if db.words.any (fun w => w.word == d.word && w.collectionId == some cid) then
    db
  else
    { db with
        words := db.words ++ [newWordRecord d now db.nextWordId],
        nextWordId := db.nextWordId + 1 }

/-- `getAllWords(collectionId?)`: all records, or `index.getAll(collectionId)`
(only records whose `collectionId` field equals the given id). -/
def getAllWords (cid : Option Nat) (db : DB) : List WordRecord :=
  match cid with
  | none => db.words
  | some c => db.words.filter (fun w => w.collectionId == some c)

/-- `getMistakeWords(collectionId?)`: `all.filter(w => w.mistakeCount > 0)`. -/
def getMistakeWords (cid : Option Nat) (db : DB) : List WordRecord :=
  (getAllWords cid db).filter (fun w => decide (0 < w.mistakeCount))

/-- The record update performed by `recordMistake` when the record was found:
`mistakeCount += 1`, `lastReviewed = now`, and `mistakeTypes.push(type)`
guarded by `!record.mistakeTypes.includes(type)`. -/
def bumpMistake (t : MistakeType) (now : Nat) (r : WordRecord) : WordRecord :=
  { r with
      mistakeCount := r.mistakeCount + 1,
      lastReviewed := now,
      mistakeTypes :=
        if r.mistakeTypes.contains t then r.mistakeTypes
        else r.mistakeTypes ++ [t] }

/-- `recordMistake(id, type)`: `store.get(id)`; if no record is found the
handler returns and the transaction completes, so the call resolves without
touching the store; otherwise the updated record is written back with
`store.put`, replacing the record with that key. -/
def recordMistake (key : IDBKey) (t : MistakeType) (now : Nat) (db : DB) : DB :=
  match db.words.find? (fun w => wordKey w == key) with
  | none => db
  | some r =>
      { db with
          words := db.words.map
            (fun w => if wordKey w == key then bumpMistake t now r else w) }

/-- `clearMistake(id)`: `store.get(id)`; absent id resolves without touching
the store; otherwise the record is written back with `mistakeCount = 0`,
`mistakeTypes = []`, `lastReviewed = now` (the record itself is kept). -/
def clearMistake (key : IDBKey) (now : Nat) (db : DB) : DB :=
  match db.words.find? (fun w => wordKey w == key) with
  | none => db
  | some r =>
      { db with
          words := db.words.map
            (fun w =>
              if wordKey w == key then
                { r with mistakeCount := 0, mistakeTypes := [], lastReviewed := now }
              else w) }

/-! ## The study route (`Study` component) -/

/-- The `source` query parameter: `"all" | "mistakes"`. -/
inductive StudySource where
  | all : StudySource
  | mistakes : StudySource
deriving DecidableEq

/-- One step of the `shuffleArray` loop body:
`[newArr[i], newArr[j]] = [newArr[j], newArr[i]]` — both reads happen before
both writes.  For indices out of range (never produced by the source, where
`1 ≤ i ≤ length-1` and `0 ≤ j ≤ i`) the list is returned unchanged. -/
def listSwap (l : List α) (i j : Nat) : List α :=
  match l[i]?, l[j]? with
  | some a, some b => (l.set i b).set j a
  | _, _ => l

/-- The `for (let i = newArr.length - 1; i > 0; i--)` loop of `shuffleArray`,
with the drawn indices `j = Math.floor(Math.random() * (i + 1))` supplied as
the explicit list `js` (one entry per iteration, consumed in loop order). -/
def shuffleGo (l : List α) : Nat → List Nat → List α
  | 0, _ => l
  | _ + 1, [] => l
  | i + 1, j :: js => shuffleGo (listSwap l (i + 1) j) i js

/-- `shuffleArray(array)`: copy the array and run the Fisher–Yates loop from
index `length - 1` down to `1`. -/
def shuffleArray (l : List α) (js : List Nat) : List α :=
  shuffleGo l (l.length - 1) js

/-- The choice sequences the loop can draw for counter `i`: the first entry is
`Math.floor(Math.random() * (i + 1)) ∈ [0, i]`, followed by a choice sequence
for `i - 1`.  Listing them (each equally likely) makes "each permutation
equally likely" a statement about this list. -/
def choiceSeqs : Nat → List (List Nat)
  | 0 => [[]]
  | i + 1 => (List.range (i + 2)).flatMap (fun j => (choiceSeqs i).map (fun js => j :: js))

/-- Shape of a valid choice sequence for loop counter `i`. -/
def validChoices : Nat → List Nat → Bool
  | 0, [] => true
  | 0, _ :: _ => false
  | _ + 1, [] => false
  | i + 1, j :: js => decide (j < i + 2) && validChoices i js

/-- The queue construction of the study route's `load()`:
for `source = "mistakes"`, `shuffleArray(await getMistakeWords(collectionId))`;
for `source = "all"`, `getAllWords(collectionId)` sorted by
`(a, b) => (a.id || 0) - (b.id || 0)` (ascending by id; `id : Nat` here, and
`w.id || 0 = w.id` since JS `0 || 0` is `0`) and filtered to
`w => (w.id || 0) > lastId` where `lastId = settings?.lastStudiedWordId || 0`
is the stored global progress cursor. -/
def loadQueue (src : StudySource) (cid : Option Nat) (lastId : Nat)
    (js : List Nat) (db : DB) : List WordRecord :=
  match src with
  | .mistakes => shuffleArray (getMistakeWords cid db) js
  | .all =>
      ((getAllWords cid db).mergeSort (fun a b => decide (a.id ≤ b.id))).filter
        (fun w => decide (lastId < w.id))

/-! ## Import pipeline (`app/routes/import.tsx`) -/

/-- A character matched by the split regex `[\n,，]+` (newline, ASCII comma,
full-width comma U+FF0C). -/
def isSeparatorChar (c : Char) : Bool :=
  c == '\n' || c == ',' || c == '，'

/-- JS `String.prototype.trim` whitespace, restricted to the ASCII whitespace
characters (the only ones relevant to this development). -/
def isJsWhitespaceChar (c : Char) : Bool :=
  c == ' ' || c == '\t' || c == '\n' || c == '\r' || c == '\x0b' || c == '\x0c'

/-- Character-level `trim`: drop leading and trailing whitespace. -/
def trimChars (l : List Char) : List Char :=
  ((l.dropWhile isJsWhitespaceChar).reverse.dropWhile isJsWhitespaceChar).reverse

/-- JS `w.trim()`. -/
def jsTrim (s : String) : String := String.mk (trimChars s.data)

/-- JS `String.prototype.toLowerCase`, modelled character by character with
`Char.toLower` (ASCII case mapping, all this development needs). -/
def jsToLowerCase (s : String) : String :=
  String.mk (s.data.map Char.toLower)

/-- JS `text.split(/[\n,，]+/)`: split on maximal runs of separator
characters.  A leading (resp. trailing) separator run contributes one empty
piece at the front (resp. back), exactly as in JS; inner runs contribute no
empty pieces because the regex consumes the whole run. -/
def splitRuns : List Char → List (List Char)
  | [] => [[]]
  | [c] => if isSeparatorChar c then [[], []] else [[c]]
  | c :: d :: rest =>
      if isSeparatorChar c then
        if isSeparatorChar d then splitRuns (d :: rest)
        else [] :: splitRuns (d :: rest)
      else
        match splitRuns (d :: rest) with
        | p :: ps => (c :: p) :: ps
        | [] => [[c]]

/-- `[...new Set(rawWords)]`: deduplicate keeping the first occurrence of each
element, preserving order (`seen` accumulates the elements already kept). -/
def dedupFirstAux (seen : List String) : List String → List String
  | [] => []
  | w :: ws =>
      if seen.contains w then dedupFirstAux seen ws
      else w :: dedupFirstAux (w :: seen) ws

/-- `const uniqueWords = [...new Set(rawWords)]`. -/
def dedupFirst (l : List String) : List String := dedupFirstAux [] l

/-- The tokenizer of `processImport`:
`text.split(/[\n,，]+/).map(w => w.trim()).filter(w => w.length > 0)` followed
by the `Set`-based dedup. -/
def importTokens (text : String) : List String :=
  dedupFirst
    (((splitRuns text.data).map (fun p => jsTrim (String.mk p))).filter
      (fun w => decide (0 < w.length)))

/-- JS `Array.prototype.join(sep)`. -/
def jsJoin (sep : String) : List String → String
  | [] => ""
  | [w] => w
  | w :: x :: ws => w ++ sep ++ jsJoin sep (x :: ws)

/-- The sequential token loop of `processImport`: each token is resolved via
the lookup collaborator (`fetch('/api/dict?q=...')`); a well-formed response
is committed with `addWordToVocab` and counts as a success, and every failure
(non-ok response, `data.error`, thrown exception) appends the token to the
failure list without touching the store.  Returns the final store, the
success count, and the failure list in iteration order.  (The randomized
inter-token delays affect no observable modelled here.) -/
def runImport (lookup : String → Option WordDraft) (now : Nat) :
    List String → DB → DB × Nat × List String
  | [], db => (db, 0, [])
  | w :: ws, db =>
      match lookup w with
      | some d =>
          let r := runImport lookup now ws (addWordToVocab d now db)
          (r.1, r.2.1 + 1, r.2.2)
      | none =>
          let r := runImport lookup now ws db
          (r.1, r.2.1, w :: r.2.2)

/-- `processImport` end to end: tokenize the raw text, then run the sequential
lookup-and-commit loop.  On completion the route re-offers
`failed.join('\n')` in the text box. -/
def processImport (lookup : String → Option WordDraft) (text : String)
    (now : Nat) (db : DB) : DB × Nat × List String :=
  runImport lookup now (importTokens text) db

/-! ### The dictionary lookup route (`app/routes/api.dict.ts`)

The `/api/dict` loader fetches the Youdao `jsonapi` endpoint and runs
`parseYoudaoData` over the response.  The upstream HTTP response is the only
genuinely external input; it is modelled as an oracle
`String → Option YoudaoData`, where `none` covers a network error, a non-ok
upstream status or an absent/falsy body (`if (!data) return null`) — all of
which the import loop treats uniformly as a failed token. -/

/-- The fields `parseYoudaoData` reads off `ec.word[0]`.  Each entry of `trs`
models one step of
`target.trs.map(t => t.tr && t.tr[0] && t.tr[0].l && t.tr[0].l.i && t.tr[0].l.i.join(' '))`:
`none` when any link of the chain is missing (the JS value is `undefined`),
`some s` for the joined string; the subsequent `.filter(Boolean)` drops
`none`s and empty strings. -/
structure YoudaoEcTarget where
  usphone : Option String
  ukphone : Option String
  phone : Option String
  usSpeech : Option String
  ukSpeech : Option String
  trs : List (Option String)
deriving DecidableEq

/-- One element of `blng_sents_part['sentence-pair']`. -/
structure YoudaoSentencePair where
  sentence : String
  translation : String
  speech : String
deriving DecidableEq

/-- The parts of the upstream Youdao payload that `parseYoudaoData` inspects.
`ecWord` is `ec.word[0]` when `ec.word` is a nonempty array; a present but
empty `ec.word` is collapsed into `none`, which gives the same output on
every path (an empty JS array is truthy for the first null-check but fails
`ec.word.length > 0`, so it contributes no phonetic, audio or definitions,
and the final definitions-and-examples emptiness check yields null exactly
when `none` does).  `blngSents` is `blng_sents_part` together with its
`sentence-pair` array; a `blng_sents_part` lacking that key is collapsed into
`some []` (again the same output on every path). -/
structure YoudaoData where
  ecWord : Option YoudaoEcTarget
  blngSents : Option (List YoudaoSentencePair)
deriving DecidableEq

/-- JS `String.prototype.replace` with a plain-string pattern: replace the
first occurrence only. -/
def replaceFirst (pat repl : List Char) : List Char → List Char
  | [] => []
  | c :: rest =>
      if pat.isPrefixOf (c :: rest) then repl ++ (c :: rest).drop pat.length
      else c :: replaceFirst pat repl rest

/-- `s.replace('http://', 'https://')`. -/
def replaceHttps (s : String) : String :=
  String.mk (replaceFirst "http://".data "https://".data s.data)

/-- JS `encodeURIComponent`, modelled as the identity: the route only applies
it to the plain word token, and no claim inspects the resulting URL. -/
def encodeURIComponent (s : String) : String := s

/-- `parseYoudaoData(word, data)` from `api.dict.ts`.  The returned entry
always carries the *query* token verbatim as `word:` (the route performs no
case normalization), and the result is `null` unless at least one definition
or example was extracted. -/
def parseYoudaoData (word : String) (data : Option YoudaoData) : Option WordDraft :=
  match data with
  | none => none
  | some d =>
      if d.ecWord.isNone && d.blngSents.isNone then none
      else
        let phonetic : String :=
          match d.ecWord with
          | none => ""
          | some t =>
              match t.usphone with
              | some p => "/" ++ p ++ "/"
              | none =>
                  match t.ukphone with
                  | some p => "/" ++ p ++ "/"
                  | none =>
                      match t.phone with
                      | some p => "/" ++ p ++ "/"
                      | none => ""
        let speechAudio : String :=
          match d.ecWord with
          | none => ""
          | some t =>
              match t.usSpeech with
              | some u => replaceHttps u
              | none =>
                  match t.ukSpeech with
                  | some u => replaceHttps u
                  | none => ""
        let definition : List String :=
          match d.ecWord with
          | none => []
          | some t => (t.trs.filterMap id).filter (fun s => s != "")
        let audio : String :=
          if speechAudio == "" then
            "https://dict.youdao.com/dictvoice?audio=" ++
              encodeURIComponent word ++ "&type=1"
          else speechAudio
        let examples : List ExampleEntry :=
          match d.blngSents with
          | none => []
          | some pairs =>
              (pairs.map (fun pr =>
                { en := pr.sentence, cn := pr.translation,
                  audio := "https://dict.youdao.com/dictvoice?audio=" ++ pr.speech })).take 3
        if definition.isEmpty && examples.isEmpty then none
        else some { word := word, phonetic := phonetic, definition := definition,
                    examples := examples, audio := audio, collectionId := none }

/-- The `/api/dict?q=w` lookup as the import loop sees it: fetch the upstream
payload for the token and parse it; `none` is any of the failure modes (error
response, not-found, network failure).  The parsed entry has no
`collectionId` field, so `addWordToVocab` files it under the default
collection. -/
def apiDictLookup (upstream : String → Option YoudaoData) (w : String) :
    Option WordDraft :=
  parseYoudaoData w (upstream w)

/-- A concrete upstream oracle for the witnesses: every word resolves with one
dictionary sense and no example sentences. -/
def demoUpstream (_w : String) : Option YoudaoData :=
  some { ecWord := some { usphone := some "x", ukphone := none, phone := none,
                          usSpeech := none, ukSpeech := none,
                          trs := [some "a meaning"] },
         blngSents := none }

/-! ## Spelling mode (`handleSpellingCheck`) -/

/-- The feedback state set by `handleSpellingCheck`. -/
inductive SpellFeedback where
  | correct : SpellFeedback
  | incorrect : SpellFeedback
deriving DecidableEq

/-- The answer judgement of spelling mode:
`spellingInput.trim().toLowerCase() === currentWord.word.toLowerCase()`. -/
def spellingCorrect (input headword : String) : Bool :=
  jsToLowerCase (jsTrim input) == jsToLowerCase headword

/-- `handleSpellingCheck`: judge the typed input; when correct, clear the
mistake if reviewing the mistakes source; when incorrect, record a spelling
mistake.  Note that the route passes `currentWord.word` — the headword
*string* — to `recordMistake`/`clearMistake`, whose db.ts signatures take the
numeric record id. -/
def handleSpellingCheck (src : StudySource) (cur : WordRecord) (input : String)
    (now : Nat) (db : DB) : SpellFeedback × DB :=
  if spellingCorrect input cur.word then
    (.correct, if src = .mistakes then clearMistake (IDBKey.str cur.word) now db else db)
  else
    (.incorrect, recordMistake (IDBKey.str cur.word) MistakeType.spelling now db)

/-- The `handleCreate` submit handler of the collections route:
`if (!collectionNameInput.trim()) return;` (a silent no-op for names that are
empty after trimming) and otherwise
`await addCollection(collectionNameInput.trim())`. -/
def handleCreate (input : String) (now : Nat) (db : DB) : DB :=
  if jsTrim input == "" then db
  else (addCollection (jsTrim input) now db).1

/-! ## Concrete sample data (used by the witnesses) -/

/-- A plain stored word record with the given id. -/
def demoWord (i : Nat) : WordRecord :=
  { id := i, word := "w" ++ toString i, phonetic := "", definition := ["d"],
    examples := [], audio := "", addedAt := 0, mistakeCount := 0,
    lastReviewed := 0, mistakeTypes := [], collectionId := some 1 }

/-- A database holding the default collection and words with ids 1..10. -/
def demoDB : DB :=
  { collections := [⟨1, "Default Collection", 0⟩],
    words := (List.range 10).map (fun i => demoWord (i + 1)),
    nextCollectionId := 2, nextWordId := 11 }

/-- The record hit by the spelling-mode failing input. -/
def appleRecord : WordRecord :=
  { id := 1, word := "apple", phonetic := "", definition := ["a fruit"],
    examples := [], audio := "", addedAt := 0, mistakeCount := 0,
    lastReviewed := 0, mistakeTypes := [], collectionId := some 1 }

/-- A database holding just `appleRecord`. -/
def appleDB : DB :=
  { collections := [⟨1, "Default Collection", 0⟩], words := [appleRecord],
    nextCollectionId := 2, nextWordId := 2 }

/-- A draft as submitted by the import flow. -/
def demoDraft (w : String) (cid : Option Nat) : WordDraft :=
  { word := w, phonetic := "p", definition := ["def"], examples := [],
    audio := "a", collectionId := cid }

/-- A freshly initialized database: the seeded default collection, no words. -/
def freshDB : DB :=
  { collections := [⟨1, "Default Collection", 0⟩], words := [],
    nextCollectionId := 2, nextWordId := 1 }

/-- A stored word record with one recognition mistake. -/
def demoMistakeWord (i : Nat) : WordRecord :=
  { demoWord i with mistakeCount := 1, mistakeTypes := [MistakeType.recognition] }

/-- A database mixing clean words and mistake words. -/
def mistakeDB : DB :=
  { collections := [⟨1, "Default Collection", 0⟩],
    words := [demoWord 1, demoMistakeWord 2, demoWord 3, demoMistakeWord 4,
      demoMistakeWord 5],
    nextCollectionId := 2, nextWordId := 6 }

/-! ## General lemmas -/

theorem find?_eq_some_of_mem_unique {p : α → Bool} {l : List α} {a : α}
    (ha : a ∈ l) (hpa : p a = true)
    (huniq : ∀ x ∈ l, ∀ y ∈ l, p x = true → p y = true → x = y) :
    l.find? p = some a := by
  induction l with
  | nil => cases ha
  | cons b t ih =>
      by_cases hb : p b = true
      · have : a = b := huniq a ha b (List.mem_cons_self b t) hpa hb
        subst this
        simp [List.find?, hb]
      · have hab : a ≠ b := fun h => hb (h ▸ hpa)
        have hat : a ∈ t := by
          rcases List.mem_cons.mp ha with h | h
          · exact absurd h hab
          · exact h
        have := ih hat (fun x hx y hy => huniq x (List.mem_cons_of_mem _ hx)
          y (List.mem_cons_of_mem _ hy))
        simp [List.find?, Bool.of_not_eq_true hb, this]

/-- An element list whose image under `f` has no duplicates admits no two
distinct members with the same image. -/
theorem inj_of_map_nodup {f : α → β} {l : List α}
    (h : (l.map f).Nodup) :
    ∀ x ∈ l, ∀ y ∈ l, f x = f y → x = y := by
  intro x hx y hy hxy
  exact List.inj_on_of_nodup_map h hx hy hxy

/-! ## C2: deleteCollection cascade -/

/-- C2: for every Collection id, `deleteCollection` leaves a state in which
`listCollections()` contains no collection with that id, no word record
references that id, and every collection and word not owned by it survives —
no partial cascade is observable. -/
theorem deleteCollection_cascade (db : DB) (id : Nat) :
    (∀ c ∈ getCollections (deleteCollection id db), c.id ≠ id) ∧
    (∀ w ∈ (deleteCollection id db).words, w.collectionId ≠ some id) ∧
    (∀ c ∈ getCollections db, c.id ≠ id → c ∈ getCollections (deleteCollection id db)) ∧
    (∀ w ∈ db.words, w.collectionId ≠ some id → w ∈ (deleteCollection id db).words) := by
  refine ⟨?_, ?_, ?_, ?_⟩
  · intro c hc
    have := (List.mem_filter.mp hc).2
    simpa using this
  · intro w hw
    have := (List.mem_filter.mp hw).2
    simpa using this
  · intro c hc h
    exact List.mem_filter.mpr ⟨hc, by simpa using h⟩
  · intro w hw h
    exact List.mem_filter.mpr ⟨hw, by simpa using h⟩

/-- Witness for C2 at a concrete database and collection id. -/
theorem deleteCollection_cascade_witness :
    (∀ c ∈ getCollections (deleteCollection 1 demoDB), c.id ≠ 1) ∧
    (∀ w ∈ (deleteCollection 1 demoDB).words, w.collectionId ≠ some 1) ∧
    (∀ c ∈ getCollections demoDB, c.id ≠ 1 → c ∈ getCollections (deleteCollection 1 demoDB)) ∧
    (∀ w ∈ demoDB.words, w.collectionId ≠ some 1 → w ∈ (deleteCollection 1 demoDB).words) :=
  deleteCollection_cascade demoDB 1

/-! ## C9: createCollection never validates -/

/-- Counterexample to C9 as stated: `addCollection` applied to the empty name
does not fail — it stores a collection whose name is the empty string and
returns its fresh id. -/
theorem addCollection_empty_name_creates :
    ((addCollection "" 0 ⟨[⟨1, "Default Collection", 0⟩], [], 2, 1⟩).1.collections.map
      (fun c => c.name)) = ["Default Collection", ""] ∧
    (addCollection "" 0 ⟨[⟨1, "Default Collection", 0⟩], [], 2, 1⟩).2 = 2 :=
  ⟨rfl, rfl⟩

/-- C9 (amended): the store operation performs no validation — every name,
including names empty after trimming, yields a new stored collection with
exactly that name and the fresh id as the return value; rejection of blank
names happens only in the collections form handler, which silently refuses to
submit (there is no `ValidationError` anywhere in the code). -/
theorem addCollection_no_validation (name : String) (now : Nat) (db : DB) :
    (addCollection name now db).1.collections =
      db.collections ++ [⟨db.nextCollectionId, name, now⟩] ∧
    (addCollection name now db).2 = db.nextCollectionId ∧
    (∀ input : String, jsTrim input = "" → handleCreate input now db = db) := by
  refine ⟨rfl, rfl, ?_⟩
  intro input h
  simp [handleCreate, h]

/-- Witness for C9's amended theorem: a blank submission is silently dropped
by the form handler. -/
theorem addCollection_no_validation_witness :
    jsTrim "   " = "" ∧ handleCreate "   " 0 demoDB = demoDB :=
  ⟨by decide, (addCollection_no_validation "x" 0 demoDB).2.2 "   " (by decide)⟩

/-! ## C7: spelling judgement is right, but the mistake write misses -/

/-- C7 (code evaluated at the failing input): the spelling judgement itself
follows trim + case-fold (so " Apple " is accepted against "apple" and "aple"
is rejected), but an incorrect answer changes nothing in the store: the route
passes the headword string to `recordMistake`, whose lookup key is the numeric
record id, so `store.get("apple")` misses and the update silently no-ops —
`mistakeCount` stays 0 instead of becoming 1.  The last conjunct shows the
miss is systematic: a string key can never match any stored record. -/
theorem spelling_mistake_never_recorded :
    (spellingCorrect " Apple " "apple" = true) ∧
    (handleSpellingCheck .all appleRecord " Apple " 5 appleDB).1 = .correct ∧
    (handleSpellingCheck .all appleRecord "aple" 5 appleDB).1 = .incorrect ∧
    (handleSpellingCheck .all appleRecord "aple" 5 appleDB).2 = appleDB ∧
    (∀ (db : DB) (s : String) (t : MistakeType) (now : Nat),
      recordMistake (IDBKey.str s) t now db = db) := by
  refine ⟨by decide, by decide, by decide, by decide, ?_⟩
  intro db s t now
  unfold recordMistake
  have h : db.words.find? (fun w => wordKey w == IDBKey.str s) = none := by
    rw [List.find?_eq_none]
    intro w _
    simp [wordKey]
  rw [h]

/-! ## C5: recordMistake -/

/-- `recordMistake` with a hit rewrites the word list pointwise. -/
theorem recordMistake_found {db : DB} {key : IDBKey} {t : MistakeType}
    {now : Nat} {r : WordRecord}
    (h : db.words.find? (fun w => wordKey w == key) = some r) :
    (recordMistake key t now db).words =
      db.words.map (fun w => if wordKey w == key then bumpMistake t now r else w) := by
  unfold recordMistake
  rw [h]

/-- C5: on a present id, `recordMistake` bumps exactly that record — counter
up by one, last-reviewed stamped, the kind appended only when absent (set
semantics), so two same-kind calls in a row raise the counter by two while
the kind appears exactly once; on an absent id the call is a silent no-op. -/
theorem recordMistake_spec (db : DB) (id : Nat) (k : MistakeType) (n1 n2 : Nat)
    (hn : (db.words.map (fun w => w.id)).Nodup) :
    (∀ w ∈ db.words, w.id = id →
      (∃ w' ∈ (recordMistake (IDBKey.num id) k n1 db).words,
        w'.id = w.id ∧
        w'.mistakeCount = w.mistakeCount + 1 ∧
        w'.lastReviewed = n1 ∧
        (k ∈ w.mistakeTypes → w'.mistakeTypes = w.mistakeTypes) ∧
        (k ∉ w.mistakeTypes → w'.mistakeTypes = w.mistakeTypes ++ [k])) ∧
      (w.mistakeTypes = [] →
        ∃ w'' ∈ (recordMistake (IDBKey.num id) k n2
            (recordMistake (IDBKey.num id) k n1 db)).words,
          w''.id = w.id ∧
          w''.mistakeCount = w.mistakeCount + 2 ∧
          w''.mistakeTypes = [k])) ∧
    ((∀ w ∈ db.words, w.id ≠ id) → recordMistake (IDBKey.num id) k n1 db = db) := by
  constructor
  · intro w hw hid
    have hkey : (fun x => wordKey x == IDBKey.num id) w = true := by
      simp [wordKey, hid]
    have huniq : ∀ x ∈ db.words, ∀ y ∈ db.words,
        (fun x => wordKey x == IDBKey.num id) x = true →
        (fun x => wordKey x == IDBKey.num id) y = true → x = y := by
      intro x hx y hy hpx hpy
      simp only [wordKey, beq_iff_eq, IDBKey.num.injEq] at hpx hpy
      exact inj_of_map_nodup hn x hx y hy (hpx.trans hpy.symm)
    have hfind : db.words.find? (fun x => wordKey x == IDBKey.num id) = some w :=
      find?_eq_some_of_mem_unique hw hkey huniq
    have hwords1 : (recordMistake (IDBKey.num id) k n1 db).words =
        db.words.map
          (fun x => if wordKey x == IDBKey.num id then bumpMistake k n1 w else x) :=
      recordMistake_found hfind
    constructor
    · refine ⟨bumpMistake k n1 w, ?_, rfl, rfl, rfl, ?_, ?_⟩
      · rw [hwords1]
        refine List.mem_map.mpr ⟨w, hw, ?_⟩
        simp [hkey]
      · intro hmem
        simp [bumpMistake, hmem]
      · intro hmem
        simp [bumpMistake, hmem]
    · intro hempty
      -- after the first call the bumped record sits in the store with the
      -- same id, so the second call finds it
      set db1 := recordMistake (IDBKey.num id) k n1 db with hdb1
      have hmem1 : bumpMistake k n1 w ∈ db1.words := by
        rw [hdb1, hwords1]
        refine List.mem_map.mpr ⟨w, hw, ?_⟩
        simp [hkey]
      have hids1 : (db1.words.map (fun x => x.id)).Nodup := by
        rw [hdb1, hwords1, List.map_map]
        have hfun : ((fun x => x.id) ∘ fun x =>
            if wordKey x == IDBKey.num id then bumpMistake k n1 w else x) =
            fun x => x.id := by
          funext x
          by_cases hx : (wordKey x == IDBKey.num id) = true
          · have hxid : x.id = id := by simpa [wordKey] using hx
            simp [Function.comp, hx, bumpMistake, hxid, hid]
          · simp [Function.comp, hx]
        rw [hfun]
        exact hn
      have hkey1 : (fun x => wordKey x == IDBKey.num id) (bumpMistake k n1 w) = true := by
        simp [wordKey, bumpMistake, hid]
      have huniq1 : ∀ x ∈ db1.words, ∀ y ∈ db1.words,
          (fun x => wordKey x == IDBKey.num id) x = true →
          (fun x => wordKey x == IDBKey.num id) y = true → x = y := by
        intro x hx y hy hpx hpy
        simp only [wordKey, beq_iff_eq, IDBKey.num.injEq] at hpx hpy
        exact inj_of_map_nodup hids1 x hx y hy (hpx.trans hpy.symm)
      have hfind1 : db1.words.find? (fun x => wordKey x == IDBKey.num id) =
          some (bumpMistake k n1 w) :=
        find?_eq_some_of_mem_unique hmem1 hkey1 huniq1
      have hwords2 : (recordMistake (IDBKey.num id) k n2 db1).words =
          db1.words.map
            (fun x => if wordKey x == IDBKey.num id then
              bumpMistake k n2 (bumpMistake k n1 w) else x) :=
        recordMistake_found hfind1
      refine ⟨bumpMistake k n2 (bumpMistake k n1 w), ?_, rfl, ?_, ?_⟩
      · rw [hwords2]
        refine List.mem_map.mpr ⟨bumpMistake k n1 w, hmem1, ?_⟩
        simp [hkey1]
      · simp [bumpMistake]
      · simp [bumpMistake, hempty]
  · intro habs
    unfold recordMistake
    have h : db.words.find? (fun w => wordKey w == IDBKey.num id) = none := by
      rw [List.find?_eq_none]
      intro w hw
      simp [wordKey]
      exact habs w hw
    rw [h]

/-- Witness for C5: two spelling mistakes on the stored word with id 3 yield
counter 2 and kind set `[spelling]`, and a call on the absent id 99 is a
no-op. -/
theorem recordMistake_spec_witness :
    ((demoDB.words.map (fun w => w.id)).Nodup ∧
      demoWord 3 ∈ demoDB.words ∧ (demoWord 3).id = 3 ∧
      (demoWord 3).mistakeTypes = [] ∧
      (∀ w ∈ demoDB.words, w.id ≠ 99)) ∧
    ((∃ w'' ∈ (recordMistake (IDBKey.num 3) MistakeType.spelling 8
        (recordMistake (IDBKey.num 3) MistakeType.spelling 7 demoDB)).words,
      w''.id = 3 ∧ w''.mistakeCount = 2 ∧ w''.mistakeTypes = [MistakeType.spelling]) ∧
     recordMistake (IDBKey.num 99) MistakeType.spelling 7 demoDB = demoDB) := by
  refine ⟨⟨by decide, by decide, by decide, by decide, by decide⟩, ?_, ?_⟩
  · have h := ((recordMistake_spec demoDB 3 MistakeType.spelling 7 8
      (by decide)).1 (demoWord 3) (by decide) (by decide)).2 (by decide)
    simpa using h
  · exact (recordMistake_spec demoDB 99 MistakeType.spelling 7 8 (by decide)).2
      (by decide)

/-! ## C6: clearMistake resets exactly the progress fields -/

/-- C6: on a present id, `clearMistake` zeroes the mistake counter, empties
the kind set and stamps last-reviewed, while every lexical field of that
record survives; every other record is untouched and no record is deleted. -/
theorem clearMistake_frame (db : DB) (id : Nat) (now : Nat)
    (hn : (db.words.map (fun w => w.id)).Nodup) :
    (∀ w ∈ db.words, w.id = id →
      ∃ w' ∈ (clearMistake (IDBKey.num id) now db).words,
        w'.id = w.id ∧ w'.mistakeCount = 0 ∧ w'.mistakeTypes = [] ∧
        w'.lastReviewed = now ∧ w'.word = w.word ∧ w'.phonetic = w.phonetic ∧
        w'.definition = w.definition ∧ w'.examples = w.examples ∧
        w'.audio = w.audio ∧ w'.addedAt = w.addedAt ∧
        w'.collectionId = w.collectionId) ∧
    (∀ w ∈ db.words, w.id ≠ id → w ∈ (clearMistake (IDBKey.num id) now db).words) ∧
    (clearMistake (IDBKey.num id) now db).words.length = db.words.length := by
  by_cases hex : ∃ w ∈ db.words, w.id = id
  · obtain ⟨r, hr, hrid⟩ := hex
    have hkey : (fun x => wordKey x == IDBKey.num id) r = true := by
      simp [wordKey, hrid]
    have huniq : ∀ x ∈ db.words, ∀ y ∈ db.words,
        (fun x => wordKey x == IDBKey.num id) x = true →
        (fun x => wordKey x == IDBKey.num id) y = true → x = y := by
      intro x hx y hy hpx hpy
      simp only [wordKey, beq_iff_eq, IDBKey.num.injEq] at hpx hpy
      exact inj_of_map_nodup hn x hx y hy (hpx.trans hpy.symm)
    have hfind : db.words.find? (fun x => wordKey x == IDBKey.num id) = some r :=
      find?_eq_some_of_mem_unique hr hkey huniq
    have hwords : (clearMistake (IDBKey.num id) now db).words =
        db.words.map (fun w =>
          if wordKey w == IDBKey.num id then
            { r with mistakeCount := 0, mistakeTypes := [], lastReviewed := now }
          else w) := by
      unfold clearMistake
      rw [hfind]
    refine ⟨?_, ?_, ?_⟩
    · intro w hw hid
      have hww : w = r := huniq w hw r hr (by simp [wordKey, hid]) hkey
      subst hww
      refine ⟨{ w with mistakeCount := 0, mistakeTypes := [], lastReviewed := now },
        ?_, rfl, rfl, rfl, rfl, rfl, rfl, rfl, rfl, rfl, rfl, rfl⟩
      rw [hwords]
      exact List.mem_map.mpr ⟨w, hw, by simp [wordKey, hid]⟩
    · intro w hw hid
      rw [hwords]
      refine List.mem_map.mpr ⟨w, hw, ?_⟩
      simp [wordKey, hid]
    · rw [hwords, List.length_map]
  · push_neg at hex
    have h : db.words.find? (fun w => wordKey w == IDBKey.num id) = none := by
      rw [List.find?_eq_none]
      intro w hw
      simp [wordKey]
      exact hex w hw
    have hsame : clearMistake (IDBKey.num id) now db = db := by
      unfold clearMistake
      rw [h]
    refine ⟨?_, ?_, ?_⟩
    · intro w hw hid
      exact absurd hid (hex w hw)
    · intro w hw _
      rw [hsame]
      exact hw
    · rw [hsame]

/-- Witness for C6 on the stored word with id 3. -/
theorem clearMistake_frame_witness :
    ((demoDB.words.map (fun w => w.id)).Nodup ∧
      demoWord 3 ∈ demoDB.words ∧ (demoWord 3).id = 3) ∧
    (∃ w' ∈ (clearMistake (IDBKey.num 3) 9 demoDB).words,
      w'.id = 3 ∧ w'.mistakeCount = 0 ∧ w'.mistakeTypes = [] ∧
      w'.lastReviewed = 9 ∧ w'.word = (demoWord 3).word ∧
      w'.phonetic = (demoWord 3).phonetic ∧
      w'.definition = (demoWord 3).definition ∧
      w'.examples = (demoWord 3).examples ∧
      w'.audio = (demoWord 3).audio ∧ w'.addedAt = (demoWord 3).addedAt ∧
      w'.collectionId = (demoWord 3).collectionId) ∧
    (clearMistake (IDBKey.num 3) 9 demoDB).words.length = demoDB.words.length := by
  refine ⟨⟨by decide, by decide, by decide⟩, ?_, ?_⟩
  · have h := (clearMistake_frame demoDB 3 9 (by decide)).1 (demoWord 3)
      (by decide) (by decide)
    simpa using h
  · exact (clearMistake_frame demoDB 3 9 (by decide)).2.2

/-! ## C1: addWord uniqueness, first write wins -/

/-- The duplicate branch of `addWordToVocab`: an index hit resolves without
modifying anything. -/
theorem addWord_skip {db : DB} {d : WordDraft} {now : Nat}
    (h : ∃ w ∈ db.words, w.word = d.word ∧
      w.collectionId = some (orDefaultCollection d.collectionId)) :
    addWordToVocab d now db = db := by
  obtain ⟨w, hw, hword, hcid⟩ := h
  have hany : db.words.any (fun w => w.word == d.word &&
      w.collectionId == some (orDefaultCollection d.collectionId)) = true := by
    rw [List.any_eq_true]
    exact ⟨w, hw, by simp [hword, hcid]⟩
  simp [addWordToVocab, hany]

/-- The miss branch of `addWordToVocab`: a fresh record is appended. -/
theorem addWord_insert {db : DB} {d : WordDraft} {now : Nat}
    (h : ∀ w ∈ db.words, ¬(w.word = d.word ∧
      w.collectionId = some (orDefaultCollection d.collectionId))) :
    addWordToVocab d now db =
      { db with words := db.words ++ [newWordRecord d now db.nextWordId],
                nextWordId := db.nextWordId + 1 } := by
  have hany : db.words.any (fun w => w.word == d.word &&
      w.collectionId == some (orDefaultCollection d.collectionId)) = false := by
    rw [List.any_eq_false]
    intro w hw hcontra
    simp only [Bool.and_eq_true, beq_iff_eq] at hcontra
    exact h w hw hcontra
  simp [addWordToVocab, hany]

/-- A collection id that is an actual store key (ids start at 1) is preserved
by the `|| 1` fallback. -/
theorem orDefaultCollection_some {c : Nat} (h : c ≠ 0) :
    orDefaultCollection (some c) = c := by
  simp [orDefaultCollection, h]

/-- C1: adding a second draft with the same headword and the same owning
collection id right after a first one is a no-op — the store keeps exactly one
record for the (headword, collectionId) pair and that record carries the first
draft's field values; while the same headword under two different (valid,
nonzero) collection ids yields two independent records. -/
theorem addWord_first_write_wins :
    (∀ (db : DB) (d1 d2 : WordDraft) (n1 n2 : Nat),
      d2.word = d1.word → d2.collectionId = d1.collectionId →
      (∀ w ∈ db.words, ¬(w.word = d1.word ∧
        w.collectionId = some (orDefaultCollection d1.collectionId))) →
      addWordToVocab d2 n2 (addWordToVocab d1 n1 db) = addWordToVocab d1 n1 db ∧
      ((addWordToVocab d2 n2 (addWordToVocab d1 n1 db)).words.filter
        (fun w => w.word == d1.word &&
          w.collectionId == some (orDefaultCollection d1.collectionId))).length = 1 ∧
      (∀ w ∈ (addWordToVocab d2 n2 (addWordToVocab d1 n1 db)).words,
        w.word = d1.word →
        w.collectionId = some (orDefaultCollection d1.collectionId) →
        w.phonetic = d1.phonetic ∧ w.definition = d1.definition ∧
        w.examples = d1.examples ∧ w.audio = d1.audio ∧ w.addedAt = n1 ∧
        w.mistakeCount = 0 ∧ w.lastReviewed = 0 ∧ w.mistakeTypes = [])) ∧
    (∀ (db : DB) (d1 d2 : WordDraft) (n1 n2 c1 c2 : Nat),
      d2.word = d1.word → d1.collectionId = some c1 → d2.collectionId = some c2 →
      c1 ≠ 0 → c2 ≠ 0 → c1 ≠ c2 →
      (∀ w ∈ db.words, w.word = d1.word →
        w.collectionId ≠ some c1 ∧ w.collectionId ≠ some c2) →
      ((addWordToVocab d2 n2 (addWordToVocab d1 n1 db)).words.filter
        (fun w => w.word == d1.word && w.collectionId == some c1)).length = 1 ∧
      ((addWordToVocab d2 n2 (addWordToVocab d1 n1 db)).words.filter
        (fun w => w.word == d1.word && w.collectionId == some c2)).length = 1) := by
  constructor
  · intro db d1 d2 n1 n2 hw hc hno
    have h1 : addWordToVocab d1 n1 db =
        { db with words := db.words ++ [newWordRecord d1 n1 db.nextWordId],
                  nextWordId := db.nextWordId + 1 } := addWord_insert hno
    have hskip : addWordToVocab d2 n2 (addWordToVocab d1 n1 db) =
        addWordToVocab d1 n1 db := by
      apply addWord_skip
      refine ⟨newWordRecord d1 n1 db.nextWordId, ?_, by simp [newWordRecord, hw], ?_⟩
      · rw [h1]; simp
      · simp [newWordRecord, hc]
    refine ⟨hskip, ?_, ?_⟩
    · rw [hskip, h1]
      simp only [List.filter_append]
      have hnil : db.words.filter (fun w => w.word == d1.word &&
          w.collectionId == some (orDefaultCollection d1.collectionId)) = [] := by
        rw [List.filter_eq_nil_iff]
        intro w hww hcontra
        simp only [Bool.and_eq_true, beq_iff_eq] at hcontra
        exact hno w hww hcontra
      rw [hnil]
      simp [newWordRecord]
    · intro w hmem hword hcid
      rw [hskip, h1] at hmem
      simp only [List.mem_append, List.mem_singleton] at hmem
      rcases hmem with hmem | hmem
      · exact absurd ⟨hword, hcid⟩ (hno w hmem)
      · subst hmem
        simp [newWordRecord]
  · intro db d1 d2 n1 n2 c1 c2 hw hc1 hc2 hz1 hz2 hne hno
    have e1 : orDefaultCollection d1.collectionId = c1 := by
      rw [hc1]; exact orDefaultCollection_some hz1
    have e2 : orDefaultCollection d2.collectionId = c2 := by
      rw [hc2]; exact orDefaultCollection_some hz2
    have hno1 : ∀ w ∈ db.words, ¬(w.word = d1.word ∧
        w.collectionId = some (orDefaultCollection d1.collectionId)) := by
      intro w hww ⟨ha, hb⟩
      exact (hno w hww ha).1 (by rwa [e1] at hb)
    have h1 : addWordToVocab d1 n1 db =
        { db with words := db.words ++ [newWordRecord d1 n1 db.nextWordId],
                  nextWordId := db.nextWordId + 1 } := addWord_insert hno1
    have hno2 : ∀ w ∈ (addWordToVocab d1 n1 db).words, ¬(w.word = d2.word ∧
        w.collectionId = some (orDefaultCollection d2.collectionId)) := by
      rw [h1]
      intro w hww ⟨ha, hb⟩
      rw [e2] at hb
      simp only [List.mem_append, List.mem_singleton] at hww
      rcases hww with hww | hww
      · exact (hno w hww (hw ▸ ha)).2 hb
      · subst hww
        simp only [newWordRecord, e1] at hb
        exact hne (Option.some.injEq _ _ ▸ hb ▸ rfl)
    have h2 : addWordToVocab d2 n2 (addWordToVocab d1 n1 db) =
        { addWordToVocab d1 n1 db with
            words := (addWordToVocab d1 n1 db).words ++
              [newWordRecord d2 n2 (addWordToVocab d1 n1 db).nextWordId],
            nextWordId := (addWordToVocab d1 n1 db).nextWordId + 1 } :=
      addWord_insert hno2
    constructor
    · rw [h2, h1]
      simp only [List.filter_append]
      have hnil : db.words.filter
          (fun w => w.word == d1.word && w.collectionId == some c1) = [] := by
        rw [List.filter_eq_nil_iff]
        intro w hww hcontra
        simp only [Bool.and_eq_true, beq_iff_eq] at hcontra
        exact (hno w hww hcontra.1).1 hcontra.2
      rw [hnil]
      simp [newWordRecord, e1, e2, hw, hne]
      exact fun hh => hne hh.symm
    · rw [h2, h1]
      simp only [List.filter_append]
      have hnil : db.words.filter
          (fun w => w.word == d1.word && w.collectionId == some c2) = [] := by
        rw [List.filter_eq_nil_iff]
        intro w hww hcontra
        simp only [Bool.and_eq_true, beq_iff_eq] at hcontra
        exact (hno w hww hcontra.1).2 hcontra.2
      rw [hnil]
      have hnec : c1 ≠ c2 := hne
      simp [newWordRecord, e1, e2, hw, hnec]

/-- Witness for C1: importing "cat" twice into collection 1 stores it once
with the first draft's fields, and "cat" into collections 1 and 2 stores two
records. -/
theorem addWord_first_write_wins_witness :
    ((demoDraft "cat" (some 1)).word = (demoDraft "cat" (some 1)).word ∧
      (∀ w ∈ (DB.mk [⟨1, "Default Collection", 0⟩] [] 2 1).words,
        ¬(w.word = (demoDraft "cat" (some 1)).word ∧
          w.collectionId = some (orDefaultCollection (demoDraft "cat" (some 1)).collectionId)))) ∧
    (addWordToVocab (demoDraft "cat" (some 1)) 1
        (addWordToVocab (demoDraft "cat" (some 1)) 0
          (DB.mk [⟨1, "Default Collection", 0⟩] [] 2 1)) =
      addWordToVocab (demoDraft "cat" (some 1)) 0
        (DB.mk [⟨1, "Default Collection", 0⟩] [] 2 1)) ∧
    (((addWordToVocab (demoDraft "cat" (some 2)) 1
        (addWordToVocab (demoDraft "cat" (some 1)) 0
          (DB.mk [⟨1, "Default Collection", 0⟩] [] 2 1))).words.filter
      (fun w => w.word == "cat" && w.collectionId == some 1)).length = 1 ∧
     ((addWordToVocab (demoDraft "cat" (some 2)) 1
        (addWordToVocab (demoDraft "cat" (some 1)) 0
          (DB.mk [⟨1, "Default Collection", 0⟩] [] 2 1))).words.filter
      (fun w => w.word == "cat" && w.collectionId == some 2)).length = 1) := by
  refine ⟨⟨rfl, by decide⟩, ?_, ?_⟩
  · exact (addWord_first_write_wins.1 (DB.mk [⟨1, "Default Collection", 0⟩] [] 2 1)
      (demoDraft "cat" (some 1)) (demoDraft "cat" (some 1)) 0 1 rfl rfl
      (by decide)).1
  · exact addWord_first_write_wins.2 (DB.mk [⟨1, "Default Collection", 0⟩] [] 2 1)
      (demoDraft "cat" (some 1)) (demoDraft "cat" (some 2)) 0 1 1 2 rfl rfl rfl
      (by decide) (by decide) (by decide) (by decide)

/-! ## C3: the resumable "all" queue -/

/-- C3: for any stored records and cursor `k`, the `source = all` queue is
exactly the matching records with id strictly above `k`, in ascending id
order: it is sorted by id, it is a permutation of the id-filtered record set,
every queued id exceeds the cursor, and on ids 1..10 with cursor 4 the queue
is exactly [5, 6, 7, 8, 9, 10]. -/
theorem loadQueue_all_spec (db : DB) (cid : Option Nat) (k : Nat) (js : List Nat) :
    (loadQueue .all cid k js db).Pairwise (fun a b => a.id ≤ b.id) ∧
    (loadQueue .all cid k js db).Perm
      ((getAllWords cid db).filter (fun w => decide (k < w.id))) ∧
    (∀ w ∈ loadQueue .all cid k js db, k < w.id) ∧
    (loadQueue .all none 4 [] demoDB).map (fun w => w.id) = [5, 6, 7, 8, 9, 10] := by
  have htrans : ∀ (a b c : WordRecord), decide (a.id ≤ b.id) = true →
      decide (b.id ≤ c.id) = true → decide (a.id ≤ c.id) = true := by
    intro a b c
    simp only [decide_eq_true_eq]
    omega
  have htotal : ∀ (a b : WordRecord),
      (decide (a.id ≤ b.id) || decide (b.id ≤ a.id)) = true := by
    intro a b
    simp only [Bool.or_eq_true, decide_eq_true_eq]
    omega
  refine ⟨?_, ?_, ?_, ?_⟩
  · have hs := List.sorted_mergeSort htrans htotal (getAllWords cid db)
    have := (hs.filter (fun w => decide (k < w.id)))
    exact this.imp (fun h => of_decide_eq_true h)
  · exact List.Perm.filter _ (List.mergeSort_perm (getAllWords cid db) _)
  · intro w hw
    have := List.of_mem_filter hw
    exact of_decide_eq_true this
  · show (((getAllWords none demoDB).mergeSort
      (fun a b => decide (a.id ≤ b.id))).filter
        (fun w => decide (4 < w.id))).map (fun w => w.id) = [5, 6, 7, 8, 9, 10]
    rw [List.mergeSort_of_sorted (by decide)]
    decide

/-- Witness for C3: a concrete store with one out-of-order insertion, a
collection filter and cursor 2. -/
theorem loadQueue_all_spec_witness :
    (loadQueue .all (some 1) 2 [] appleDB).Pairwise (fun a b => a.id ≤ b.id) ∧
    (loadQueue .all (some 1) 2 [] appleDB).Perm
      ((getAllWords (some 1) appleDB).filter (fun w => decide (2 < w.id))) ∧
    (∀ w ∈ loadQueue .all (some 1) 2 [] appleDB, 2 < w.id) ∧
    (loadQueue .all none 4 [] demoDB).map (fun w => w.id) = [5, 6, 7, 8, 9, 10] :=
  loadQueue_all_spec appleDB (some 1) 2 []

/-! ## C8: import of "cat, cat\ndog,,Cat" -/

/-- A successful parse always carries the query token verbatim as the
headword: `parseYoudaoData` sets `word: word` unconditionally. -/
theorem parseYoudaoData_word (w : String) (dat : Option YoudaoData)
    (d : WordDraft) (h : parseYoudaoData w dat = some d) : d.word = w := by
  cases dat with
  | none => simp [parseYoudaoData] at h
  | some dd =>
      simp only [parseYoudaoData] at h
      split at h
      · exact absurd h (by simp)
      · split at h
        · exact absurd h (by simp)
        · have hd := (Option.some.injEq _ _).mp h
          rw [← hd]

/-- The success counter of the loop counts exactly the tokens whose lookup
succeeded. -/
theorem runImport_success (lookup : String → Option WordDraft) (now : Nat) :
    ∀ (ts : List String) (db : DB),
      (runImport lookup now ts db).2.1 =
        (ts.filter (fun w => (lookup w).isSome)).length := by
  intro ts
  induction ts with
  | nil => intro db; rfl
  | cons w ws ih =>
      intro db
      cases hl : lookup w with
      | some d => simp [runImport, hl, ih]
      | none => simp [runImport, hl, ih]

/-- When every lookup succeeds, returns the token verbatim as the headword,
the tokens are pairwise distinct and none is already stored, the loop appends
one record per token, headwords in token order. -/
theorem runImport_words (lookup : String → Option WordDraft) (now : Nat)
    (hword : ∀ w d, lookup w = some d → d.word = w) :
    ∀ (ts : List String) (db : DB),
      (∀ t ∈ ts, (lookup t).isSome) → ts.Nodup →
      (∀ t ∈ ts, ∀ r ∈ db.words, r.word ≠ t) →
      (runImport lookup now ts db).1.words.map (fun w => w.word) =
        db.words.map (fun w => w.word) ++ ts := by
  intro ts
  induction ts with
  | nil => intro db _ _ _; simp [runImport]
  | cons w ws ih =>
      intro db hsome hnd hfresh
      obtain ⟨d, hd⟩ : ∃ d, lookup w = some d :=
        Option.isSome_iff_exists.mp (hsome w (List.mem_cons_self _ _))
      have hdw : d.word = w := hword w d hd
      have hmiss : ∀ r ∈ db.words, ¬(r.word = d.word ∧
          r.collectionId = some (orDefaultCollection d.collectionId)) := by
        intro r hr hcontra
        exact hfresh w (List.mem_cons_self _ _) r hr (hdw ▸ hcontra.1)
      have hins : addWordToVocab d now db =
          { db with words := db.words ++ [newWordRecord d now db.nextWordId],
                    nextWordId := db.nextWordId + 1 } := addWord_insert hmiss
      have hfresh' : ∀ t ∈ ws, ∀ r ∈ (addWordToVocab d now db).words,
          r.word ≠ t := by
        intro t ht r hr
        rw [hins] at hr
        simp only [List.mem_append, List.mem_singleton] at hr
        rcases hr with hr | hr
        · exact hfresh t (List.mem_cons_of_mem _ ht) r hr
        · subst hr
          show d.word ≠ t
          rw [hdw]
          intro hwt
          subst hwt
          exact (List.nodup_cons.mp hnd).1 ht
      have hrec := ih (addWordToVocab d now db)
        (fun t ht => hsome t (List.mem_cons_of_mem _ ht))
        (List.nodup_cons.mp hnd).2 hfresh'
      simp only [runImport, hd]
      rw [hrec, hins]
      simp [newWordRecord, hdw]

/-- Counterexample to C8 as stated: the tokenizer deduplicates
case-sensitively, so the input produces the three tokens cat, dog, Cat; with
the `/api/dict` lookup succeeding on every unique token (a concrete upstream
response), the run stores three new word records — cat, dog and Cat — not
two. -/
theorem import_dedup_counterexample :
    importTokens "cat, cat\ndog,,Cat" = ["cat", "dog", "Cat"] ∧
    (∀ t ∈ importTokens "cat, cat\ndog,,Cat",
      (apiDictLookup demoUpstream t).isSome) ∧
    ((processImport (apiDictLookup demoUpstream) "cat, cat\ndog,,Cat" 0
      freshDB).1.words.map (fun w => w.word)) = ["cat", "dog", "Cat"] ∧
    ¬(processImport (apiDictLookup demoUpstream) "cat, cat\ndog,,Cat" 0
      freshDB).1.words.length = 2 :=
  ⟨by decide, by decide, by decide, by decide⟩

/-- C8 (amended): the pipeline tokenizes "cat, cat\ndog,,Cat" into exactly the
three case-distinct tokens cat, dog, Cat; the `/api/dict` route's
`parseYoudaoData` always returns the query token verbatim as the headword, so
whenever the lookup succeeds for each unique token the run performs three
successful lookups and stores exactly three new WordRecords — cat, dog and
Cat — not two. -/
theorem import_dedup_amended :
    importTokens "cat, cat\ndog,,Cat" = ["cat", "dog", "Cat"] ∧
    (∀ (upstream : String → Option YoudaoData),
      (∀ t ∈ importTokens "cat, cat\ndog,,Cat",
        (apiDictLookup upstream t).isSome) →
      ((processImport (apiDictLookup upstream) "cat, cat\ndog,,Cat" 0
          freshDB).1.words.map (fun w => w.word)) = ["cat", "dog", "Cat"] ∧
      (processImport (apiDictLookup upstream) "cat, cat\ndog,,Cat" 0
        freshDB).1.words.length = 3 ∧
      (processImport (apiDictLookup upstream) "cat, cat\ndog,,Cat" 0
        freshDB).2.1 = 3) := by
  have htok : importTokens "cat, cat\ndog,,Cat" = ["cat", "dog", "Cat"] := by
    decide
  refine ⟨htok, ?_⟩
  intro upstream hsucc
  rw [htok] at hsucc
  have hword : ∀ w d, apiDictLookup upstream w = some d → d.word = w :=
    fun w d h => parseYoudaoData_word w (upstream w) d h
  have hrun : processImport (apiDictLookup upstream) "cat, cat\ndog,,Cat" 0
      freshDB = runImport (apiDictLookup upstream) 0 ["cat", "dog", "Cat"]
      freshDB := by
    rw [processImport, htok]
  have hmap := runImport_words (apiDictLookup upstream) 0 hword
    ["cat", "dog", "Cat"] freshDB hsucc (by decide)
    (by intro t _ r hr; simp [freshDB] at hr)
  have hmap' : (processImport (apiDictLookup upstream) "cat, cat\ndog,,Cat" 0
      freshDB).1.words.map (fun w => w.word) = ["cat", "dog", "Cat"] := by
    rw [hrun, hmap]
    simp [freshDB]
  refine ⟨hmap', ?_, ?_⟩
  · have hlen := congrArg List.length hmap'
    rw [List.length_map] at hlen
    rw [hlen]
    decide
  · rw [hrun, runImport_success]
    rw [List.filter_eq_self.mpr hsucc]
    decide

/-- Witness for C8's amended theorem at the concrete upstream oracle. -/
theorem import_dedup_amended_witness :
    (∀ t ∈ importTokens "cat, cat\ndog,,Cat",
      (apiDictLookup demoUpstream t).isSome) ∧
    (((processImport (apiDictLookup demoUpstream) "cat, cat\ndog,,Cat" 0
        freshDB).1.words.map (fun w => w.word)) = ["cat", "dog", "Cat"] ∧
     (processImport (apiDictLookup demoUpstream) "cat, cat\ndog,,Cat" 0
       freshDB).1.words.length = 3 ∧
     (processImport (apiDictLookup demoUpstream) "cat, cat\ndog,,Cat" 0
       freshDB).2.1 = 3) :=
  ⟨by decide, import_dedup_amended.2 demoUpstream (by decide)⟩

/-! ## C10: the failed batch round-trips through the retry text box -/

theorem splitRuns_ne_nil : ∀ l : List Char, splitRuns l ≠ [] := by
  intro l
  induction l using splitRuns.induct with
  | case1 => simp [splitRuns]
  | case2 c hc => simp [splitRuns, hc]
  | case3 c hc => simp [splitRuns, hc]
  | case4 c d rest hc hd ih => simpa [splitRuns, hc, hd] using ih
  | case5 c d rest hc hd ih => simp [splitRuns, hc, hd]
  | case6 c d rest hc p ps hsplit ih => simp [splitRuns, hc, hsplit]
  | case7 c d rest hc hsplit ih => simp [splitRuns, hc, hsplit]

/-- Every piece produced by the split is free of separator characters. -/
theorem splitRuns_pieces_sepfree :
    ∀ (l : List Char), ∀ p ∈ splitRuns l, ∀ c ∈ p, isSeparatorChar c = false := by
  intro l
  induction l using splitRuns.induct with
  | case1 =>
      intro p hp
      simp [splitRuns] at hp
      simp [hp]
  | case2 c hc =>
      intro p hp
      simp [splitRuns, hc] at hp
      simp [hp]
  | case3 c hc =>
      intro p hp
      simp [splitRuns, hc] at hp
      intro x hx
      simp [hp] at hx
      simpa [hx] using hc
  | case4 c d rest hc hd ih =>
      intro p hp
      rw [splitRuns, if_pos hc, if_pos hd] at hp
      exact ih p hp
  | case5 c d rest hc hd ih =>
      intro p hp
      rw [splitRuns, if_pos hc, if_neg hd] at hp
      rcases List.mem_cons.mp hp with h | h
      · simp [h]
      · exact ih p h
  | case6 c d rest hc p' ps' hsplit ih =>
      intro p hp
      rw [splitRuns, if_neg hc, hsplit] at hp
      rcases List.mem_cons.mp hp with h | h
      · subst h
        intro x hx
        rcases List.mem_cons.mp hx with h | h
        · subst h
          exact Bool.of_not_eq_true hc
        · exact ih p' (hsplit ▸ List.mem_cons_self _ _) x h
      · exact ih p (hsplit ▸ List.mem_cons_of_mem _ h)
  | case7 c d rest hc hsplit ih =>
      exact absurd hsplit (splitRuns_ne_nil _)

/-- A separator-free block glued onto the front of the input extends the first
piece of the split. -/
theorem splitRuns_sepfree_append :
    ∀ (xs ys : List Char), (∀ c ∈ xs, isSeparatorChar c = false) →
    ∀ (p : List Char) (ps : List (List Char)), splitRuns ys = p :: ps →
    splitRuns (xs ++ ys) = (xs ++ p) :: ps := by
  intro xs
  induction xs with
  | nil =>
      intro ys _ p ps h
      simpa using h
  | cons c xs' ih =>
      intro ys hfree p ps h
      have hc : isSeparatorChar c = false := hfree c (List.mem_cons_self _ _)
      have hfree' : ∀ x ∈ xs', isSeparatorChar x = false :=
        fun x hx => hfree x (List.mem_cons_of_mem _ hx)
      have ihp := ih ys hfree' p ps h
      show splitRuns (c :: (xs' ++ ys)) = ((c :: xs') ++ p) :: ps
      cases hxy : xs' ++ ys with
      | nil =>
          rw [hxy] at ihp
          simp [splitRuns] at ihp
          obtain ⟨hp, hps⟩ := ihp
          rcases List.append_eq_nil.mp hxy with ⟨hxs, hys⟩
          subst hxs
          simp [splitRuns, hc, ← hp, hps]
      | cons d rest =>
          rw [hxy] at ihp
          rw [splitRuns, if_neg (by simp [hc]), ihp]
          simp

/-- A separator in front of a non-separator character opens a fresh piece. -/
theorem splitRuns_sep_cons (c y : Char) (ys : List Char)
    (hc : isSeparatorChar c = true) (hy : isSeparatorChar y = false) :
    splitRuns (c :: y :: ys) = [] :: splitRuns (y :: ys) := by
  rw [splitRuns, if_pos hc, if_neg (by simp [hy])]

/-- A nonempty separator-free input is a single piece. -/
theorem splitRuns_sepfree (xs : List Char)
    (hfree : ∀ c ∈ xs, isSeparatorChar c = false) :
    splitRuns xs = [xs] := by
  have := splitRuns_sepfree_append xs [] hfree [] [] (by simp [splitRuns])
  simpa using this

theorem dropWhile_head_not {p : α → Bool} :
    ∀ {l : List α} {a : α}, (l.dropWhile p).head? = some a → p a = false := by
  intro l
  induction l with
  | nil => intro a h; simp at h
  | cons c t ih =>
      intro a h
      by_cases hc : p c = true
      · rw [List.dropWhile_cons_of_pos hc] at h
        exact ih h
      · rw [List.dropWhile_cons_of_neg hc] at h
        simp at h
        subst h
        exact Bool.of_not_eq_true hc

theorem dropWhile_eq_self_of_head {p : α → Bool} {l : List α}
    (h : ∀ a, l.head? = some a → p a = false) : l.dropWhile p = l := by
  cases l with
  | nil => rfl
  | cons c t =>
      have := h c rfl
      rw [List.dropWhile_cons_of_neg (by simp [this])]

theorem getLast?_dropWhile {p : α → Bool} :
    ∀ {l : List α}, l.dropWhile p ≠ [] → (l.dropWhile p).getLast? = l.getLast? := by
  intro l
  induction l with
  | nil => intro h; simp at h
  | cons c t ih =>
      intro h
      by_cases hc : p c = true
      · rw [List.dropWhile_cons_of_pos hc] at h ⊢
        rw [ih h]
        cases t with
        | nil => simp at h
        | cons x t' => rw [List.getLast?_cons_cons]

      · rw [List.dropWhile_cons_of_neg hc]

/-- `dropWhile` is idempotent. -/
theorem dropWhile_idem {p : α → Bool} {l : List α} :
    (l.dropWhile p).dropWhile p = l.dropWhile p :=
  dropWhile_eq_self_of_head (fun _ h => dropWhile_head_not h)

/-- `trim` is idempotent. -/
theorem trimChars_idem (l : List Char) : trimChars (trimChars l) = trimChars l := by
  unfold trimChars
  have h1 : (((l.dropWhile isJsWhitespaceChar).reverse.dropWhile
      isJsWhitespaceChar).reverse).dropWhile isJsWhitespaceChar =
      ((l.dropWhile isJsWhitespaceChar).reverse.dropWhile isJsWhitespaceChar).reverse := by
    apply dropWhile_eq_self_of_head
    intro a ha
    rw [List.head?_reverse] at ha
    have hne : (l.dropWhile isJsWhitespaceChar).reverse.dropWhile isJsWhitespaceChar ≠ [] := by
      intro hnil
      rw [hnil] at ha
      simp at ha
    rw [getLast?_dropWhile hne, List.getLast?_reverse] at ha
    exact dropWhile_head_not ha
  rw [h1, List.reverse_reverse, dropWhile_idem]

/-- Every character of the trimmed list occurs in the original list. -/
theorem trimChars_subset {l : List Char} : ∀ c ∈ trimChars l, c ∈ l := by
  intro c hc
  unfold trimChars at hc
  rw [List.mem_reverse] at hc
  have hc2 := (List.dropWhile_sublist _).subset hc
  rw [List.mem_reverse] at hc2
  exact (List.dropWhile_sublist _).subset hc2

/-- `jsTrim` is idempotent. -/
theorem jsTrim_idem (s : String) : jsTrim (jsTrim s) = jsTrim s := by
  show String.mk (trimChars (trimChars s.data)) = String.mk (trimChars s.data)
  rw [trimChars_idem]

/-- The dedup keeps its output duplicate-free and disjoint from `seen`. -/
theorem dedupFirstAux_nodup :
    ∀ (l seen : List String),
      (dedupFirstAux seen l).Nodup ∧ ∀ w ∈ dedupFirstAux seen l, w ∉ seen := by
  intro l
  induction l with
  | nil => intro seen; simp [dedupFirstAux]
  | cons w ws ih =>
      intro seen
      by_cases hw : seen.contains w = true
      · rw [dedupFirstAux, if_pos hw]
        exact ih seen
      · rw [dedupFirstAux, if_neg hw]
        obtain ⟨hnd, hdisj⟩ := ih (w :: seen)
        refine ⟨List.nodup_cons.mpr ⟨?_, hnd⟩, ?_⟩
        · intro hmem
          exact hdisj w hmem (List.mem_cons_self _ _)
        · intro x hx
          rcases List.mem_cons.mp hx with h | h
          · subst h
            simpa using hw
          · intro hxs
            exact hdisj x h (List.mem_cons_of_mem _ hxs)

/-- On a duplicate-free list disjoint from `seen`, the dedup is the identity. -/
theorem dedupFirstAux_of_nodup :
    ∀ (l seen : List String), l.Nodup → (∀ w ∈ l, w ∉ seen) →
      dedupFirstAux seen l = l := by
  intro l
  induction l with
  | nil => intro seen _ _; rfl
  | cons w ws ih =>
      intro seen hnd hdisj
      have hw : w ∉ seen := hdisj w (List.mem_cons_self _ _)
      rw [dedupFirstAux, if_neg (by simpa using hw)]
      congr 1
      apply ih (w :: seen) (List.nodup_cons.mp hnd).2
      intro x hx
      intro hmem
      rcases List.mem_cons.mp hmem with h | h
      · subst h
        exact (List.nodup_cons.mp hnd).1 hx
      · exact hdisj x (List.mem_cons_of_mem _ hx) h

theorem dedupFirst_nodup (l : List String) : (dedupFirst l).Nodup :=
  (dedupFirstAux_nodup l []).1

theorem dedupFirst_of_nodup {l : List String} (h : l.Nodup) : dedupFirst l = l :=
  dedupFirstAux_of_nodup l [] h (by simp)

/-- The dedup output is a sublist of its input. -/
theorem dedupFirstAux_sublist :
    ∀ (l seen : List String), (dedupFirstAux seen l).Sublist l := by
  intro l
  induction l with
  | nil => intro seen; simp [dedupFirstAux]
  | cons w ws ih =>
      intro seen
      by_cases hw : seen.contains w = true
      · rw [dedupFirstAux, if_pos hw]
        exact (ih seen).cons w
      · rw [dedupFirstAux, if_neg hw]
        exact (ih (w :: seen)).cons₂ w

theorem dedupFirst_subset {l : List String} : ∀ w ∈ dedupFirst l, w ∈ l :=
  fun _ hw => (dedupFirstAux_sublist l []).subset hw

/-- A string with no characters is the empty string. -/
theorem eq_empty_of_data_eq_nil {s : String} (h : s.data = []) : s = "" := by
  have hs : s = String.mk s.data := rfl
  rw [hs, h]

/-- Every token produced by the import tokenizer is nonempty, already
trimmed, and free of separator characters. -/
theorem importTokens_good (text : String) :
    ∀ w ∈ importTokens text,
      w ≠ "" ∧ jsTrim w = w ∧ ∀ c ∈ w.data, isSeparatorChar c = false := by
  intro w hw
  have hw1 := dedupFirst_subset w hw
  have hw2 := List.mem_filter.mp hw1
  obtain ⟨p, hp, hpw⟩ := List.mem_map.mp hw2.1
  have hlen : 0 < w.length := of_decide_eq_true hw2.2
  refine ⟨?_, ?_, ?_⟩
  · intro hempty
    rw [hempty] at hlen
    simp [String.length] at hlen
  · rw [← hpw, jsTrim_idem]
  · intro c hc
    have hcd : c ∈ trimChars p := by
      have : w.data = trimChars p := by rw [← hpw]; rfl
      rwa [this] at hc
    exact splitRuns_pieces_sepfree text.data p hp c (trimChars_subset c hcd)

theorem importTokens_nodup (text : String) : (importTokens text).Nodup :=
  dedupFirst_nodup _

/-- `failed.join('\n')` glues two or more tokens with a newline. -/
theorem jsJoin_cons_cons (w x : String) (ws : List String) :
    (jsJoin "\n" (w :: x :: ws)).data =
      w.data ++ '\n' :: (jsJoin "\n" (x :: ws)).data := by
  show ((w ++ "\n") ++ jsJoin "\n" (x :: ws)).data = _
  rw [String.data_append, String.data_append]
  simp

/-- The joined text starts with the first token's characters. -/
theorem jsJoin_cons_data (x : String) (ws : List String) :
    ∃ t, (jsJoin "\n" (x :: ws)).data = x.data ++ t := by
  cases ws with
  | nil => exact ⟨[], by simp [jsJoin]⟩
  | cons y ys => exact ⟨'\n' :: (jsJoin "\n" (y :: ys)).data, jsJoin_cons_cons x y ys⟩

/-- Splitting the newline-joined token list recovers exactly the tokens'
character lists, provided every token is nonempty and separator-free. -/
theorem splitRuns_jsJoin :
    ∀ (l : List String),
      (∀ w ∈ l, w.data ≠ [] ∧ ∀ c ∈ w.data, isSeparatorChar c = false) →
      l ≠ [] → splitRuns (jsJoin "\n" l).data = l.map (fun w => w.data) := by
  intro l
  induction l with
  | nil => intro _ h; exact absurd rfl h
  | cons w ws ih =>
      intro hgood _
      obtain ⟨hwne, hwfree⟩ := hgood w (List.mem_cons_self _ _)
      cases ws with
      | nil =>
          show splitRuns w.data = [w.data]
          exact splitRuns_sepfree w.data hwfree
      | cons x ws' =>
          rw [jsJoin_cons_cons]
          have hrest := ih (fun y hy => hgood y (List.mem_cons_of_mem _ hy)) (by simp)
          obtain ⟨hxne, hxfree⟩ := hgood x (List.mem_cons_of_mem _ (List.mem_cons_self _ _))
          obtain ⟨t, ht⟩ := jsJoin_cons_data x ws'
          cases hxd : x.data with
          | nil => exact absurd hxd hxne
          | cons c cs =>
              have hc : isSeparatorChar c = false := hxfree c (hxd ▸ List.mem_cons_self _ _)
              have hsep : splitRuns ('\n' :: (jsJoin "\n" (x :: ws')).data) =
                  [] :: splitRuns (jsJoin "\n" (x :: ws')).data := by
                rw [ht, hxd]
                exact splitRuns_sep_cons '\n' c (cs ++ t) (by decide) hc
              rw [splitRuns_sepfree_append w.data _ hwfree [] _ hsep, hrest]
              simp

/-- Tokenizing the newline-join of well-formed, duplicate-free tokens gives
back exactly those tokens. -/
theorem importTokens_jsJoin (l : List String)
    (hgood : ∀ w ∈ l, w ≠ "" ∧ jsTrim w = w ∧ ∀ c ∈ w.data, isSeparatorChar c = false)
    (hnd : l.Nodup) : importTokens (jsJoin "\n" l) = l := by
  cases l with
  | nil => decide
  | cons w ws =>
      have hgood' : ∀ x ∈ w :: ws,
          x.data ≠ [] ∧ ∀ c ∈ x.data, isSeparatorChar c = false := by
        intro x hx
        obtain ⟨h1, _, h3⟩ := hgood x hx
        exact ⟨fun hd => h1 (eq_empty_of_data_eq_nil hd), h3⟩
      rw [importTokens, splitRuns_jsJoin (w :: ws) hgood' (by simp), List.map_map]
      have hmap : ((w :: ws).map ((fun p => jsTrim (String.mk p)) ∘ fun x => x.data)) =
          w :: ws := by
        have hpt : ∀ x ∈ w :: ws,
            ((fun p => jsTrim (String.mk p)) ∘ fun x => x.data) x = x :=
          fun x hx => (hgood x hx).2.1
        calc ((w :: ws).map ((fun p => jsTrim (String.mk p)) ∘ fun x => x.data))
            = (w :: ws).map (fun x => x) := List.map_congr_left hpt
          _ = w :: ws := by simp
      rw [hmap]
      have hfilter : (w :: ws).filter (fun x => decide (0 < x.length)) = w :: ws := by
        rw [List.filter_eq_self]
        intro x hx
        have h1 := (hgood x hx).1
        have hd : x.data ≠ [] := fun hd => h1 (eq_empty_of_data_eq_nil hd)
        have hpos : 0 < x.data.length := List.length_pos.mpr hd
        exact decide_eq_true hpos
      rw [hfilter]
      exact dedupFirst_of_nodup hnd

/-- The failure list of the sequential lookup loop is exactly the tokens whose
lookup failed, in order (independent of the evolving store state). -/
theorem runImport_failed (lookup : String → Option WordDraft) (now : Nat) :
    ∀ (ts : List String) (db : DB),
      (runImport lookup now ts db).2.2 = ts.filter (fun w => (lookup w).isNone) := by
  intro ts
  induction ts with
  | nil => intro db; rfl
  | cons w ws ih =>
      intro db
      cases hl : lookup w with
      | some d => simp [runImport, hl, ih]
      | none => simp [runImport, hl, ih]

/-- C10: for every import run, every failed token is nonempty, already
trimmed, separator-free, the failure list has no duplicates, and re-tokenizing
the re-offered text `failed.join('\n')` yields back exactly the failure list —
the failed batch round-trips losslessly through the retry text box. -/
theorem import_failed_roundtrip (lookup : String → Option WordDraft)
    (text : String) (now : Nat) (db : DB) :
    (∀ w ∈ (processImport lookup text now db).2.2,
      w ≠ "" ∧ jsTrim w = w ∧ ∀ c ∈ w.data, isSeparatorChar c = false) ∧
    (processImport lookup text now db).2.2.Nodup ∧
    importTokens (jsJoin "\n" (processImport lookup text now db).2.2) =
      (processImport lookup text now db).2.2 := by
  have hfail : (processImport lookup text now db).2.2 =
      (importTokens text).filter (fun w => (lookup w).isNone) :=
    runImport_failed lookup now (importTokens text) db
  rw [hfail]
  have hgood : ∀ w ∈ (importTokens text).filter (fun w => (lookup w).isNone),
      w ≠ "" ∧ jsTrim w = w ∧ ∀ c ∈ w.data, isSeparatorChar c = false :=
    fun w hw => importTokens_good text w (List.mem_of_mem_filter hw)
  have hnd : ((importTokens text).filter (fun w => (lookup w).isNone)).Nodup :=
    (importTokens_nodup text).filter _
  exact ⟨hgood, hnd, importTokens_jsJoin _ hgood hnd⟩

/-! ## C4: the mistakes queue and Fisher–Yates uniformity -/

/-- Replacing the head by `x` and re-inserting the old value `b` of slot `j`
at the front permutes the list. -/
theorem cons_set_perm :
    ∀ (t : List α) (j : Nat) (x b : α), t[j]? = some b →
      (b :: t.set j x).Perm (x :: t) := by
  intro t
  induction t with
  | nil => intro j x b h; simp at h
  | cons c t' ih =>
      intro j x b h
      cases j with
      | zero =>
          have hcb : c = b := by simpa using h
          rw [List.set_cons_zero, ← hcb]
          exact List.Perm.swap x c t'
      | succ j' =>
          simp only [List.getElem?_cons_succ] at h
          rw [List.set_cons_succ]
          exact ((List.Perm.swap c b _).trans ((ih j' x b h).cons c)).trans
            (List.Perm.swap x c t')

/-- The double `set` swapping two occupied slots is a permutation. -/
theorem set_set_perm :
    ∀ (l : List α) (i j : Nat) (a b : α),
      l[i]? = some a → l[j]? = some b → ((l.set i b).set j a).Perm l := by
  intro l
  induction l with
  | nil => intro i j a b hi _; simp at hi
  | cons x t ih =>
      intro i j a b hi hj
      cases i with
      | zero =>
          have hxa : x = a := by simpa using hi
          cases j with
          | zero =>
              have hxb : x = b := by simpa using hj
              rw [List.set_cons_zero, List.set_cons_zero, ← hxa]
          | succ j' =>
              simp only [List.getElem?_cons_succ] at hj
              rw [List.set_cons_zero, List.set_cons_succ, hxa]
              exact cons_set_perm t j' a b hj
      | succ i' =>
          simp only [List.getElem?_cons_succ] at hi
          cases j with
          | zero =>
              have hxb : x = b := by simpa using hj
              rw [List.set_cons_succ, List.set_cons_zero, hxb]
              exact cons_set_perm t i' b a hi
          | succ j' =>
              simp only [List.getElem?_cons_succ] at hj
              rw [List.set_cons_succ, List.set_cons_succ]
              exact (ih i' j' a b hi hj).cons x

/-- One loop-body swap permutes the array (identity when an index misses). -/
theorem listSwap_perm (l : List α) (i j : Nat) : (listSwap l i j).Perm l := by
  unfold listSwap
  cases hi : l[i]? with
  | none => exact List.Perm.refl l
  | some a =>
      cases hj : l[j]? with
      | none => exact List.Perm.refl l
      | some b => exact set_set_perm l i j a b hi hj

/-- The whole Fisher–Yates loop permutes the array, whatever the drawn
indices. -/
theorem shuffleGo_perm :
    ∀ (js : List Nat) (i : Nat) (l : List α), (shuffleGo l i js).Perm l := by
  intro js
  induction js with
  | nil =>
      intro i l
      cases i <;> exact List.Perm.refl l
  | cons j js' ih =>
      intro i l
      cases i with
      | zero => exact List.Perm.refl l
      | succ i' =>
          exact (ih i' (listSwap l (i' + 1) j)).trans (listSwap_perm l (i' + 1) j)

/-- `shuffleArray` returns a permutation of its input. -/
theorem shuffleArray_perm (l : List α) (js : List Nat) :
    (shuffleArray l js).Perm l :=
  shuffleGo_perm js (l.length - 1) l

theorem listSwap_length (l : List α) (i j : Nat) :
    (listSwap l i j).length = l.length :=
  (listSwap_perm l i j).length_eq

theorem shuffleGo_length (js : List Nat) (i : Nat) (l : List α) :
    (shuffleGo l i js).length = l.length :=
  (shuffleGo_perm js i l).length_eq

/-- Every listed choice sequence is valid for its loop counter. -/
theorem valid_of_mem_choiceSeqs :
    ∀ (i : Nat) (js : List Nat), js ∈ choiceSeqs i → validChoices i js = true := by
  intro i
  induction i with
  | zero =>
      intro js h
      simp [choiceSeqs] at h
      simp [h, validChoices]
  | succ i' ih =>
      intro js h
      rw [choiceSeqs, List.mem_flatMap] at h
      obtain ⟨j, hj, hmem⟩ := h
      obtain ⟨js', hjs', rfl⟩ := List.mem_map.mp hmem
      rw [List.mem_range] at hj
      simp [validChoices, hj, ih js' hjs']

/-- There are `(i + 1)!` equally likely choice sequences for counter `i`. -/
theorem length_choiceSeqs : ∀ i : Nat, (choiceSeqs i).length = (i + 1).factorial := by
  intro i
  induction i with
  | zero => rfl
  | succ i' ih =>
      rw [choiceSeqs, List.length_flatMap]
      have hmap : (List.range (i' + 2)).map
          (List.length ∘ fun j => (choiceSeqs i').map (fun js => j :: js)) =
          (List.range (i' + 2)).map (fun _ => (choiceSeqs i').length) := by
        apply List.map_congr_left
        intro j _
        simp
      rw [hmap, show (fun _ : Nat => (choiceSeqs i').length) =
        Function.const Nat (choiceSeqs i').length from rfl, List.map_const,
        List.sum_replicate, List.length_range, ih, smul_eq_mul]
      show (i' + 2) * (i' + 1).factorial = (i' + 1 + 1).factorial
      rw [show (i' + 1 + 1).factorial = (i' + 1 + 1) * (i' + 1).factorial from
        Nat.factorial_succ _]

/-- The choice-sequence list has no duplicates. -/
theorem nodup_choiceSeqs : ∀ i : Nat, (choiceSeqs i).Nodup := by
  intro i
  induction i with
  | zero => simp [choiceSeqs]
  | succ i' ih =>
      rw [choiceSeqs, List.nodup_flatMap]
      constructor
      · intro j _
        exact ih.map_on (fun x _ y _ h => by simpa using h)
      · rw [List.pairwise_iff_getElem]
        intro a b ha hb hab
        intro js hja hjb
        obtain ⟨x, _, rfl⟩ := List.mem_map.mp hja
        obtain ⟨y, _, hy⟩ := List.mem_map.mp hjb
        have : (List.range (i' + 2))[a] = (List.range (i' + 2))[b] := by
          rw [List.getElem_range, List.getElem_range]
          have := (List.cons.injEq _ _ _ _).mp hy
          simp [List.getElem_range] at *
          omega
        rw [(List.nodup_range _).getElem_inj_iff] at this
        omega

/-- A swap with both indices inside the front block acts on the block and
leaves the tail alone. -/
theorem listSwap_append (t rest : List α) (i j : Nat)
    (hi : i < t.length) (hj : j < t.length) :
    listSwap (t ++ rest) i j = listSwap t i j ++ rest := by
  have hgi : (t ++ rest)[i]? = t[i]? := List.getElem?_append_left hi
  have hgj : (t ++ rest)[j]? = t[j]? := List.getElem?_append_left hj
  obtain ⟨a, hta⟩ : ∃ a, t[i]? = some a := ⟨t[i], List.getElem?_eq_getElem hi⟩
  obtain ⟨b, htb⟩ : ∃ b, t[j]? = some b := ⟨t[j], List.getElem?_eq_getElem hj⟩
  unfold listSwap
  rw [hgi, hgj, hta, htb]
  show ((t ++ rest).set i b).set j a = (t.set i b).set j a ++ rest
  rw [List.set_append, if_pos hi, List.set_append,
    if_pos (by rw [List.length_set]; exact hj)]

/-- With valid choices and the counter inside the front block, the loop only
rearranges the front block. -/
theorem shuffleGo_append :
    ∀ (i : Nat) (js : List Nat) (t rest : List α), i < t.length →
      validChoices i js = true →
      shuffleGo (t ++ rest) i js = shuffleGo t i js ++ rest := by
  intro i
  induction i with
  | zero => intro js t rest _ _; rfl
  | succ i' ih =>
      intro js t rest hlen hv
      cases js with
      | nil => simp [validChoices] at hv
      | cons j js' =>
          rw [validChoices, Bool.and_eq_true, decide_eq_true_eq] at hv
          obtain ⟨hjlt, hv'⟩ := hv
          show shuffleGo (listSwap (t ++ rest) (i' + 1) j) i' js' =
            shuffleGo (listSwap t (i' + 1) j) i' js' ++ rest
          rw [listSwap_append t rest (i' + 1) j hlen (by omega)]
          exact ih js' (listSwap t (i' + 1) j) rest
            (by rw [listSwap_length]; omega) hv'

/-- After the first swap the last slot of the block holds the element drawn
from slot `j`, and it never moves again. -/
theorem listSwap_last (t : List α) (i j : Nat) (b : α)
    (hlen : t.length = i + 2) (hj : j < i + 2) (hjb : t[j]? = some b) :
    (listSwap t (i + 1) j).drop (i + 1) = [b] := by
  have hi1 : i + 1 < t.length := by omega
  obtain ⟨a, hia⟩ : ∃ a, t[i + 1]? = some a := by
    have := List.getElem?_eq_getElem hi1
    exact ⟨t[i + 1], this⟩
  have hulen : (listSwap t (i + 1) j).length = i + 2 := by
    rw [listSwap_length]; exact hlen
  have hlast : (listSwap t (i + 1) j)[i + 1]? = some b := by
    unfold listSwap
    rw [hia, hjb]
    show ((t.set (i + 1) b).set j a)[i + 1]? = some b
    by_cases hij : j = i + 1
    · subst hij
      have hab : a = b := by rw [hia] at hjb; exact (Option.some.injEq _ _).mp hjb
      subst hab
      rw [List.getElem?_set]
      simp [hi1]
    · rw [List.getElem?_set, if_neg hij, List.getElem?_set, if_pos rfl,
        if_pos hi1]
  obtain ⟨hblt, hbval⟩ := List.getElem?_eq_some_iff.mp hlast
  rw [List.drop_eq_getElem_cons hblt, hbval]
  have : (listSwap t (i + 1) j).drop (i + 2) = [] := by
    apply List.drop_eq_nil_of_le
    omega
  rw [this]

/-- One unfolding of the loop: the first draw settles the last slot of the
block, and the rest of the loop shuffles the remaining block. -/
theorem shuffleGo_succ_decomp (t : List α) (i j : Nat) (js : List Nat) (b : α)
    (hlen : t.length = i + 2) (hj : j < i + 2) (hjb : t[j]? = some b)
    (hv : validChoices i js = true) :
    shuffleGo t (i + 1) (j :: js) =
      shuffleGo ((listSwap t (i + 1) j).take (i + 1)) i js ++ [b] := by
  have hdrop : (listSwap t (i + 1) j).drop (i + 1) = [b] :=
    listSwap_last t i j b hlen hj hjb
  have htl : ((listSwap t (i + 1) j).take (i + 1)).length = i + 1 := by
    rw [List.length_take, listSwap_length, hlen]
    omega
  calc shuffleGo t (i + 1) (j :: js)
      = shuffleGo (listSwap t (i + 1) j) i js := rfl
    _ = shuffleGo ((listSwap t (i + 1) j).take (i + 1) ++
          (listSwap t (i + 1) j).drop (i + 1)) i js := by
        rw [List.take_append_drop]
    _ = shuffleGo ((listSwap t (i + 1) j).take (i + 1)) i js ++
          (listSwap t (i + 1) j).drop (i + 1) :=
        shuffleGo_append i js _ _ (by omega) hv
    _ = shuffleGo ((listSwap t (i + 1) j).take (i + 1)) i js ++ [b] := by
        rw [hdrop]

/-- On a duplicate-free array, distinct valid choice sequences produce
distinct shuffles. -/
theorem shuffleGo_injective :
    ∀ (i : Nat) (t : List α), t.Nodup → t.length = i + 1 →
      ∀ js₁ js₂, validChoices i js₁ = true → validChoices i js₂ = true →
        shuffleGo t i js₁ = shuffleGo t i js₂ → js₁ = js₂ := by
  intro i
  induction i with
  | zero =>
      intro t _ _ js₁ js₂ h₁ h₂ _
      cases js₁ with
      | nil =>
          cases js₂ with
          | nil => rfl
          | cons _ _ => simp [validChoices] at h₂
      | cons _ _ => simp [validChoices] at h₁
  | succ i' ih =>
      intro t hnd hlen js₁ js₂ h₁ h₂ heq
      cases js₁ with
      | nil => simp [validChoices] at h₁
      | cons j₁ t₁ =>
          cases js₂ with
          | nil => simp [validChoices] at h₂
          | cons j₂ t₂ =>
              rw [validChoices, Bool.and_eq_true, decide_eq_true_eq] at h₁ h₂
              obtain ⟨hj₁, hv₁⟩ := h₁
              obtain ⟨hj₂, hv₂⟩ := h₂
              have hlen2 : t.length = i' + 2 := by omega
              obtain ⟨b₁, hb₁⟩ : ∃ b, t[j₁]? = some b :=
                ⟨t.get ⟨j₁, by omega⟩, List.getElem?_eq_getElem (by omega)⟩
              obtain ⟨b₂, hb₂⟩ : ∃ b, t[j₂]? = some b :=
                ⟨t.get ⟨j₂, by omega⟩, List.getElem?_eq_getElem (by omega)⟩
              rw [shuffleGo_succ_decomp t i' j₁ t₁ b₁ hlen2 hj₁ hb₁ hv₁,
                shuffleGo_succ_decomp t i' j₂ t₂ b₂ hlen2 hj₂ hb₂ hv₂] at heq
              have hplen :
                  (shuffleGo ((listSwap t (i' + 1) j₁).take (i' + 1)) i' t₁).length =
                  (shuffleGo ((listSwap t (i' + 1) j₂).take (i' + 1)) i' t₂).length := by
                rw [shuffleGo_length, shuffleGo_length, List.length_take,
                  List.length_take, listSwap_length, listSwap_length]
              obtain ⟨hpre, hlast⟩ := List.append_inj heq hplen
              have hbb : b₁ = b₂ := by simpa using hlast
              subst hbb
              obtain ⟨hlt₁, he₁⟩ := List.getElem?_eq_some_iff.mp hb₁
              obtain ⟨hlt₂, he₂⟩ := List.getElem?_eq_some_iff.mp hb₂
              have hjj : j₁ = j₂ :=
                (hnd.getElem_inj_iff).mp (he₁.trans he₂.symm)
              subst hjj
              have hub : ((listSwap t (i' + 1) j₁).take (i' + 1)).Nodup :=
                (List.take_sublist _ _).nodup ((listSwap_perm t (i' + 1) j₁).symm.nodup hnd)
              have hul : ((listSwap t (i' + 1) j₁).take (i' + 1)).length = i' + 1 := by
                rw [List.length_take, listSwap_length, hlen2]
                omega
              rw [ih _ hub hul t₁ t₂ hv₁ hv₂ hpre]

/-- Uniformity of the Fisher–Yates shuffle: over the equally likely valid
choice sequences, the shuffles of a duplicate-free list enumerate its
permutations exactly once each. -/
theorem shuffleArray_uniform [DecidableEq α] (l : List α) (hnd : l.Nodup) :
    ((choiceSeqs (l.length - 1)).map (fun js => shuffleArray l js)).Perm
      l.permutations := by
  cases l with
  | nil =>
      show ([([] : List α)]).Perm ([] : List α).permutations
      rw [List.permutations_nil]
  | cons x l' =>
      have hlen1 : (x :: l').length - 1 + 1 = (x :: l').length := by simp
      have hinj : ∀ a ∈ choiceSeqs ((x :: l').length - 1),
          ∀ b ∈ choiceSeqs ((x :: l').length - 1),
          shuffleArray (x :: l') a = shuffleArray (x :: l') b → a = b := by
        intro a ha b hb h
        exact shuffleGo_injective ((x :: l').length - 1) (x :: l') hnd (by simp)
          a b (valid_of_mem_choiceSeqs _ a ha) (valid_of_mem_choiceSeqs _ b hb) h
      have hndmap := (nodup_choiceSeqs ((x :: l').length - 1)).map_on hinj
      have hsub : ((choiceSeqs ((x :: l').length - 1)).map
          (fun js => shuffleArray (x :: l') js)) ⊆ (x :: l').permutations := by
        intro o ho
        obtain ⟨js, _, rfl⟩ := List.mem_map.mp ho
        exact List.mem_permutations.mpr (shuffleArray_perm _ _)
      have hlen2 : ((choiceSeqs ((x :: l').length - 1)).map
          (fun js => shuffleArray (x :: l') js)).length =
          (x :: l').permutations.length := by
        rw [List.length_map, length_choiceSeqs, List.length_permutations, hlen1]
      exact (hndmap.subperm hsub).perm_of_length_le (le_of_eq hlen2.symm)

/-- C4: the mistakes queue is the shuffle of exactly the records with a
positive mistake counter — a permutation of that set in which every record
appears exactly once — and the shuffle is a uniform Fisher–Yates: over the
equally likely random draws, each permutation of a duplicate-free list is
produced exactly once. -/
theorem mistakes_queue_spec (db : DB) (cid : Option Nat) (k : Nat)
    (js : List Nat) (l : List WordRecord) (hl : l.Nodup) :
    (loadQueue .mistakes cid k js db).Perm (getMistakeWords cid db) ∧
    (∀ w ∈ loadQueue .mistakes cid k js db, 0 < w.mistakeCount) ∧
    ((choiceSeqs (l.length - 1)).map (fun cs => shuffleArray l cs)).Perm
      l.permutations := by
  refine ⟨shuffleArray_perm _ _, ?_, shuffleArray_uniform l hl⟩
  intro w hw
  have hmem : w ∈ getMistakeWords cid db := (shuffleArray_perm _ _).subset hw
  rw [getMistakeWords] at hmem
  exact of_decide_eq_true (List.mem_filter.mp hmem).2

/-- Witness for C4: a concrete store with three mistake words and a concrete
two-element list for the uniformity statement. -/
theorem mistakes_queue_spec_witness :
    ([demoWord 1, demoWord 2].Nodup) ∧
    ((loadQueue .mistakes none 0 [1, 0] mistakeDB).Perm
      (getMistakeWords none mistakeDB) ∧
     (∀ w ∈ loadQueue .mistakes none 0 [1, 0] mistakeDB, 0 < w.mistakeCount) ∧
     ((choiceSeqs ([demoWord 1, demoWord 2].length - 1)).map
        (fun cs => shuffleArray [demoWord 1, demoWord 2] cs)).Perm
       [demoWord 1, demoWord 2].permutations) :=
  ⟨by decide, mistakes_queue_spec mistakeDB none 0 [1, 0]
    [demoWord 1, demoWord 2] (by decide)⟩

end Rush
